import Mathlib

/-!
# Verification of the 9MensMorris repository against its specification

This file gives a shallow embedding of the two source files of the
repository (`9MensMorris/new.py`, an AIMA-style adversarial-search module
with an `NMensMorris` game class, and `9MensMorris/nMensMorrisGame.py`,
the Tk board with the turn/mill/removal state machine), and proves or
refutes the frozen claims about it.

Modelling conventions:
* Python numbers used by the search code (`±np.inf`, utilities) are
  modelled by `XR := WithBot (WithTop ℚ)` where comparisons are all the
  code performs; `⊥` is `-np.inf` and the top coercion is `np.inf`.
  `expect_minmax` additionally performs arithmetic that can hit IEEE
  special values, so it is modelled over an explicit float value type `F`
  with `nan`/infinities; the probabilities appearing in the claims are
  dyadic rationals, on which Python float arithmetic is exact.
* Fallible Python code (attribute errors, `ValueError` from `max([])`,
  `ZeroDivisionError`, assertion failures) is modelled with `Except PyErr`.
* The unbounded recursions of the search functions are made total with a
  fuel parameter: fuel `0` behaves like a terminal cut (the utility is
  returned).  All theorems quantify over the fuel, and on a game whose
  tree has height below the fuel the functions agree with the source.
-/

/-- The two occupants/players, `'X'` (player 1 / human) and `'O'`
(player 2 / AI). -/
inductive Player where
  | X : Player
  | O : Player
deriving DecidableEq, Repr, BEq

/-- Python exceptions that the modelled code can raise. -/
inductive PyErr where
  | attributeError : PyErr
  | valueError : PyErr
  | assertionError : PyErr
  | zeroDivisionError : PyErr
deriving DecidableEq, Repr

/-- Extended numeric line used by the minimax/alpha-beta searches:
rationals together with `-np.inf` (`⊥`) and `np.inf` (top). The search
code only ever compares and takes `max`/`min` of these values, so the
linear order is a faithful model (no NaN can be produced). -/
abbrev XR : Type := WithBot (WithTop ℚ)

/-- Embed a rational (a plain Python number) into `XR`. -/
def XR.q (x : ℚ) : XR := ((x : WithTop ℚ) : XR)

/-- `np.inf`. -/
def XR.pInf : XR := ((⊤ : WithTop ℚ) : XR)

/-! ## `new.py`: the `GameState` namedtuple and the `NMensMorris` game

`GameState = namedtuple('GameState', 'to_move, utility, board, moves')`.
The board dictionary maps `(x, y)` pairs to occupants, and `moves` is the
collection of remaining squares.  Note the tuple has *no* field named
`game`. -/

structure GameState where
  to_move : Player
  utility : ℤ
  board : List ((ℕ × ℕ) × Player)
  moves : List (ℕ × ℕ)
deriving DecidableEq, Repr

namespace NMensMorris

/-- `NMensMorris.__init__` builds
`GameState(to_move='X', utility=0, board={}, moves={})`:
an empty board and an *empty* moves collection. -/
def initial : GameState := { to_move := Player.X, utility := 0, board := [], moves := [] }

/-- `NMensMorris.actions`: `return state.moves`. -/
def actions (state : GameState) : List (ℕ × ℕ) := state.moves

/-- `NMensMorris.result`.  The source is

```
if move not in state.moves:
    return state  # Illegal move has no effect
board = state.game.copy()
...
```

For a legal move the very next statement reads the attribute `game` of
`state`; the `GameState` namedtuple has fields
`to_move, utility, board, moves` only, so Python raises
`AttributeError` before any further effect.  The rest of the body is
unreachable. -/
def result (state : GameState) (move : ℕ × ℕ) : Except PyErr GameState :=
  if move ∈ state.moves then Except.error PyErr.attributeError
  else Except.ok state

/-- `NMensMorris.terminal_test`:
`return state.utility != 0 or len(state.moves) == 0`. -/
def terminal_test (state : GameState) : Bool :=
  state.utility ≠ 0 || state.moves.length == 0

/-- `NMensMorris.utility`:
`return state.utility if player == 'X' else -state.utility`. -/
def utility (state : GameState) (player : Player) : ℤ :=
  if player = Player.X then state.utility else -state.utility

end NMensMorris

/-! ## `new.py`: the generic `Game` interface and the search strategies

`class Game` exposes `actions`, `result`, `utility`, `terminal_test` and
`to_move(state) = state.to_move`; the search functions consume exactly
this contract. -/

structure Game (σ α : Type) where
  actions : σ → List α
  result : σ → α → σ
  utility : σ → Player → ℚ
  terminal_test : σ → Bool
  to_move : σ → Player

/-- Python's `max(iterable, key=...)` loop: keeps the current best
element and its key, replacing it exactly when a later key compares
strictly greater. -/
def pymaxGo {α β : Type} (key : α → β) (gt : β → β → Bool) : List α → α → β → α
  | [], best, _ => best
  | x :: xs, best, kb =>
    let kx := key x
    if gt kx kb then pymaxGo key gt xs x kx else pymaxGo key gt xs best kb

/-- Python's `max(iterable, key=...)` without a `default`: `none` stands
for the `ValueError` raised on an empty iterable (callers translate). -/
def pymaxKey {α β : Type} (key : α → β) (gt : β → β → Bool) : List α → Option α
  | [] => none
  | a :: rest => some (pymaxGo key gt rest a (key a))

/-- The mutually recursive `max_value`/`min_value` pair from
`minmax_decision`, combined into one function: `isMax = true` is
`max_value` (fold of `max` starting from `-np.inf` over
`min_value(result(state, a))`), `isMax = false` is `min_value`.  Fuel `0`
acts as a terminal cut returning the utility. -/
def mmVal {σ α : Type} (g : Game σ α) (p : Player) : Bool → ℕ → σ → XR
  | _, 0, s => XR.q (g.utility s p)
  | isMax, fuel + 1, s =>
    if g.terminal_test s then XR.q (g.utility s p)
    else if isMax then
      (g.actions s).foldl (fun v a => max v (mmVal g p false fuel (g.result s a))) ⊥
    else
      (g.actions s).foldl (fun v a => min v (mmVal g p true fuel (g.result s a))) XR.pInf

/-- `minmax_decision`:
`return max(game.actions(state), key=lambda a: min_value(game.result(state, a)))`.
On an empty action list Python's `max` raises `ValueError`. -/
def minmax_decision {σ α : Type} (g : Game σ α) (fuel : ℕ) (state : σ) : Except PyErr α :=
  let player := g.to_move state
  match pymaxKey (fun a => mmVal g player false fuel (g.result state a))
      (fun x y => decide (y < x)) (g.actions state) with
  | none => Except.error PyErr.valueError
  | some a => Except.ok a

/-- The `for a in game.actions(state)` loop of `alpha_beta_search.max_value`:
`v = max(v, next(a, alpha, beta)); if v >= beta: return v;
alpha = max(alpha, v)`. -/
def abGoMax {α : Type} (next : α → XR → XR → XR) : List α → XR → XR → XR → XR
  | [], v, _, _ => v
  | a :: rest, v, alpha, beta =>
    let v' := max v (next a alpha beta)
    if beta ≤ v' then v' else abGoMax next rest v' (max alpha v') beta

/-- The loop of `alpha_beta_search.min_value`:
`v = min(v, next(a, alpha, beta)); if v <= alpha: return v;
beta = min(beta, v)`. -/
def abGoMin {α : Type} (next : α → XR → XR → XR) : List α → XR → XR → XR → XR
  | [], v, _, _ => v
  | a :: rest, v, alpha, beta =>
    let v' := min v (next a alpha beta)
    if v' ≤ alpha then v' else abGoMin next rest v' alpha (min beta v')

/-- The `max_value`/`min_value` pair from `alpha_beta_search`, combined
into one function on an `isMax` flag, with the same fuel discipline as
`mmVal` (so the two searches explore the same depth-cut tree). -/
def abVal {σ α : Type} (g : Game σ α) (p : Player) : Bool → ℕ → σ → XR → XR → XR
  | _, 0, s, _, _ => XR.q (g.utility s p)
  | isMax, fuel + 1, s, alpha, beta =>
    if g.terminal_test s then XR.q (g.utility s p)
    else if isMax then
      abGoMax (fun a al be => abVal g p false fuel (g.result s a) al be) (g.actions s) ⊥ alpha beta
    else
      abGoMin (fun a al be => abVal g p true fuel (g.result s a) al be) (g.actions s)
        XR.pInf alpha beta

/-- The body loop of `alpha_beta_search`:
`best_score = -np.inf; beta = np.inf; best_action = None;`
`for a in actions: v = min_value(result(state, a), best_score, beta);`
`if v > best_score: best_score, best_action = v, a`. -/
def absRootGo {σ α : Type} (g : Game σ α) (p : Player) (fuel : ℕ) (state : σ) :
    List α → XR → Option α → Option α
  | [], _, best => best
  | a :: rest, best_score, best =>
    let v := abVal g p false fuel (g.result state a) best_score XR.pInf
    if best_score < v then absRootGo g p fuel state rest v (some a)
    else absRootGo g p fuel state rest best_score best

/-- `alpha_beta_search`; returns `None` when the root action list is
empty. -/
def alpha_beta_search {σ α : Type} (g : Game σ α) (fuel : ℕ) (state : σ) : Option α :=
  absRootGo g (g.to_move state) fuel state (g.actions state) ⊥ none

/-- The default cutoff of `alpha_beta_cutoff_search`:
`lambda state, depth: depth > d or game.terminal_test(state)`. -/
def cutoff_test_default {σ α : Type} (g : Game σ α) (d : ℕ) (state : σ) (depth : ℕ) : Bool :=
  decide (d < depth) || g.terminal_test state

/-- The `max_value`/`min_value` pair of `alpha_beta_cutoff_search` with
the default cutoff and the default `eval_fn`
(`lambda state: game.utility(state, player)`); the recursion is bounded
by the depth reaching `d`, exactly as in the source. -/
def abcVal {σ α : Type} (g : Game σ α) (p : Player) (d : ℕ) (isMax : Bool) (depth : ℕ)
    (s : σ) (alpha beta : XR) : XR :=
  if h : cutoff_test_default g d s depth = true then XR.q (g.utility s p)
  else if isMax then
    abGoMax (fun a al be => abcVal g p d false (depth + 1) (g.result s a) al be)
      (g.actions s) ⊥ alpha beta
  else
    abGoMin (fun a al be => abcVal g p d true (depth + 1) (g.result s a) al be)
      (g.actions s) XR.pInf alpha beta
termination_by d + 1 - depth
decreasing_by
  all_goals
    simp only [cutoff_test_default, Bool.or_eq_true, decide_eq_true_eq, not_or] at h
    obtain ⟨h1, -⟩ := h
    omega

/-- The body loop of `alpha_beta_cutoff_search` (initial depth `1`). -/
def abcRootGo {σ α : Type} (g : Game σ α) (p : Player) (d : ℕ) (state : σ) :
    List α → XR → Option α → Option α
  | [], _, best => best
  | a :: rest, best_score, best =>
    let v := abcVal g p d false 1 (g.result state a) best_score XR.pInf
    if best_score < v then abcRootGo g p d state rest v (some a)
    else abcRootGo g p d state rest best_score best

/-- `alpha_beta_cutoff_search` with the default cutoff test and
evaluation function; returns `None` on an empty root action list. -/
def alpha_beta_cutoff_search {σ α : Type} (g : Game σ α) (d : ℕ) (state : σ) : Option α :=
  abcRootGo g (g.to_move state) d state (g.actions state) ⊥ none

/-! ## `new.py`: `expect_minmax`

`expect_minmax` mixes comparisons with genuine float arithmetic
(`util * game.probability(chance)`, `sum_chances / num_chances`), so its
values are modelled by an explicit IEEE-style value type `F` carrying
exact rationals (the probabilities relevant to the claims are dyadic, on
which Python float arithmetic is exact) together with the special
values. -/

inductive F where
  | nan : F
  | ninf : F
  | pinf : F
  | q : ℚ → F
deriving DecidableEq, Repr

namespace F

/-- Python `>` on floats: any comparison involving NaN is false. -/
def gt : F → F → Bool
  | .q a, .q b => decide (b < a)
  | .pinf, .q _ => true
  | .pinf, .ninf => true
  | .q _, .ninf => true
  | _, _ => false

/-- Python `max(a, b)`: returns `b` exactly when `b > a`. -/
def pymax (a b : F) : F := if gt b a then b else a

/-- Python `min(a, b)`: returns `b` exactly when `b < a`. -/
def pymin (a b : F) : F := if gt a b then b else a

/-- Float addition. -/
def add : F → F → F
  | .nan, _ => .nan
  | _, .nan => .nan
  | .pinf, .ninf => .nan
  | .ninf, .pinf => .nan
  | .pinf, _ => .pinf
  | _, .pinf => .pinf
  | .ninf, _ => .ninf
  | _, .ninf => .ninf
  | .q a, .q b => .q (a + b)

/-- Float multiplication. -/
def mul : F → F → F
  | .nan, _ => .nan
  | _, .nan => .nan
  | .pinf, .pinf => .pinf
  | .pinf, .ninf => .ninf
  | .ninf, .pinf => .ninf
  | .ninf, .ninf => .pinf
  | .pinf, .q b => if 0 < b then .pinf else if b < 0 then .ninf else .nan
  | .q a, .pinf => if 0 < a then .pinf else if a < 0 then .ninf else .nan
  | .ninf, .q b => if 0 < b then .ninf else if b < 0 then .pinf else .nan
  | .q a, .ninf => if 0 < a then .ninf else if a < 0 then .pinf else .nan
  | .q a, .q b => .q (a * b)

/-- `sum_chances / num_chances` where the divisor is a Python `int`:
raises `ZeroDivisionError` when the chance list is empty. -/
def divNat : F → ℕ → Except PyErr F
  | _, 0 => Except.error PyErr.zeroDivisionError
  | .nan, _ => Except.ok .nan
  | .pinf, _ => Except.ok .pinf
  | .ninf, _ => Except.ok .ninf
  | .q a, n => Except.ok (.q (a / n))

end F

/-- The stochastic-game contract consumed by `expect_minmax`:
the `Game` operations plus `chances`, `outcome` and `probability`. -/
structure StochGame (σ α χ : Type) where
  actions : σ → List α
  result : σ → α → σ
  utility : σ → Player → ℚ
  terminal_test : σ → Bool
  to_move : σ → Player
  chances : σ → List χ
  outcome : σ → χ → σ
  probability : χ → ℚ

/-- Python's `max(iterable, key=...)` loop when the key function can
raise: the first exception propagates. -/
def pymaxGoE {α β ε : Type} (key : α → Except ε β) (gt : β → β → Bool) :
    List α → α → β → Except ε α
  | [], best, _ => Except.ok best
  | x :: xs, best, kb => do
    let kx ← key x
    if gt kx kb then pymaxGoE key gt xs x kx else pymaxGoE key gt xs best kb

/-- Python's `max(iterable, key=..., default=None)` with a fallible
key. -/
def pymaxDefaultNone {α β ε : Type} (key : α → Except ε β) (gt : β → β → Bool) :
    List α → Except ε (Option α)
  | [] => Except.ok none
  | a :: rest => do
    let ka ← key a
    let b ← pymaxGoE key gt rest a ka
    pure (some b)

/-- A `v = combine(v, key(a))` fold over a list with a fallible key,
used by `expect_minmax`'s `max_value`/`min_value` loops. -/
def emFold {α : Type} (key : α → Except PyErr F) (combine : F → F → F) :
    List α → F → Except PyErr F
  | [], v => Except.ok v
  | a :: rest, v => do
    let c ← key a
    emFold key combine rest (combine v c)

/-- The `for chance in game.chances(res_state)` loop of `chance_node`.
Note the faithful reproduction of the source's reassignment
`res_state = game.outcome(res_state, chance)`: each successive outcome
is taken from the *previous* outcome's state, not from the original
result state. -/
def chanceLoop {σ α χ : Type} (g : StochGame σ α χ) (p : Player)
    (nextMax nextMin : σ → Except PyErr F) :
    σ → List χ → F → Except PyErr F
  | _, [], acc => Except.ok acc
  | cur, c :: cs, acc => do
    let cur' := g.outcome cur c
    let util ← if g.to_move cur' = p then nextMax cur' else nextMin cur'
    chanceLoop g p nextMax nextMin cur' cs (F.add acc (F.mul util (F.q (g.probability c))))

/-- `chance_node(state, action)`: terminal results return the utility;
otherwise the probability-weighted utilities of the successively applied
outcomes are summed and — as in the source — divided by
`num_chances = len(game.chances(res_state))`. -/
def chanceNodeAux {σ α χ : Type} (g : StochGame σ α χ) (p : Player)
    (nextMax nextMin : σ → Except PyErr F) (state : σ) (action : α) : Except PyErr F :=
  let res := g.result state action
  if g.terminal_test res then Except.ok (F.q (g.utility res p))
  else do
    let s ← chanceLoop g p nextMax nextMin res (g.chances res) (F.q 0)
    F.divNat s (g.chances res).length

/-- The `max_value`/`min_value` pair of `expect_minmax` (no terminal
test of their own: they simply fold `max`/`min` of `chance_node` over
the actions, starting from `∓np.inf`). -/
def emVal {σ α χ : Type} (g : StochGame σ α χ) (p : Player) : Bool → ℕ → σ → Except PyErr F
  | isMax, 0, _ => Except.ok (if isMax then F.ninf else F.pinf)
  | true, fuel + 1, s =>
    emFold (fun a => chanceNodeAux g p (emVal g p true fuel) (emVal g p false fuel) s a)
      F.pymax (g.actions s) F.ninf
  | false, fuel + 1, s =>
    emFold (fun a => chanceNodeAux g p (emVal g p true fuel) (emVal g p false fuel) s a)
      F.pymin (g.actions s) F.pinf

/-- `expect_minmax`:
`return max(game.actions(state), key=lambda a: chance_node(state, a), default=None)`. -/
def expect_minmax {σ α χ : Type} (g : StochGame σ α χ) (fuel : ℕ) (state : σ) :
    Except PyErr (Option α) :=
  let player := g.to_move state
  pymaxDefaultNone
    (fun a => chanceNodeAux g player (emVal g player true fuel) (emVal g player false fuel) state a)
    F.gt (g.actions state)

/-! ### Claim C3 -/

/-- A one-state game whose (terminal) state has no actions. -/
def trivGame : Game Unit Unit where
  actions := fun _ => []
  result := fun s _ => s
  utility := fun _ _ => 0
  terminal_test := fun _ => true
  to_move := fun _ => Player.X

/-- The stochastic counterpart of `trivGame`. -/
def trivStochGame : StochGame Unit Unit Unit where
  actions := fun _ => []
  result := fun s _ => s
  utility := fun _ _ => 0
  terminal_test := fun _ => true
  to_move := fun _ => Player.X
  chances := fun _ => []
  outcome := fun s _ => s
  probability := fun _ => 1

/-! ## `nMensMorrisGame.py`: board geometry, mills, and the GUI state

Board positions are `[row, col]` pairs of Python ints.  A board button
(cell) exists at `(i, j)` exactly when the construction condition of
`BoardGui.__init__` holds; a cell's displayed text (`""`, `"X"` or
`"O"`) is modelled as a finite association list `Texts` (empty text =
no entry). -/

abbrev Pos : Type := ℤ × ℤ

/-- The cell-construction condition of `BoardGui.__init__` (lines 58-61):
`(i%6==0 and j%3==0) or (i%4==1 and j%2==1) or
((i==2 or i==4) and (j==2 or j==3 or j==4)) or (i==3 and j!=3)`,
for `i, j` in `range(7)`. -/
def validPos (p : Pos) : Bool :=
  (decide (0 ≤ p.1) && decide (p.1 ≤ 6) && decide (0 ≤ p.2) && decide (p.2 ≤ 6)) &&
    ((p.1 % 6 == 0 && p.2 % 3 == 0) ||
     (p.1 % 4 == 1 && p.2 % 2 == 1) ||
     ((p.1 == 2 || p.1 == 4) && (p.2 == 2 || p.2 == 3 || p.2 == 4)) ||
     (p.1 == 3 && p.2 != 3))

/-- The board's cells in construction (row-major) order. -/
def allValidPositions : List Pos :=
  (List.range 7).flatMap fun i =>
    (List.range 7).filterMap fun j =>
      if validPos ((i : ℤ), (j : ℤ)) then some ((i : ℤ), (j : ℤ)) else none

/-- The button texts of the board: a position carries a `Player` mark or
(no entry) the empty text. -/
abbrev Texts : Type := List (Pos × Player)

/-- The text displayed at a position (`none` = `""`). -/
def textAt (t : Texts) (p : Pos) : Option Player :=
  (t.find? fun e => e.1 == p).map fun e => e.2

/-- Overwrite the text at a position. -/
def setEntry (t : Texts) (p : Pos) (v : Player) : Texts :=
  (p, v) :: t.filter fun e => !(e.1 == p)

/-- Set the text at a position back to `""`. -/
def clearEntry (t : Texts) (p : Pos) : Texts :=
  t.filter fun e => !(e.1 == p)

/-- The `vacant_cells` list of `getAvailableMovesForPos`: every cell of
the board whose button text is `""`. -/
def vacantCells (t : Texts) : List Pos :=
  allValidPositions.filter fun p => (textAt t p).isNone

/-- The `(i, j)` offsets enumerated by
`for i in range(-1, 2): for j in range(-1, 2)`. -/
def neighborOffsets : List (ℤ × ℤ) :=
  [(-1, -1), (-1, 0), (-1, 1), (0, -1), (0, 0), (0, 1), (1, -1), (1, 0), (1, 1)]

/-- `BoardGui.getAvailableMovesForPos(x, y)`: the vacant cells among the
nine positions `[x+i, y+j]` with `i, j ∈ {-1, 0, 1}` — only the 3×3
coordinate neighborhood is ever offered. -/
def getAvailableMovesForPos (t : Texts) (x y : ℤ) : List Pos :=
  (neighborOffsets.map fun d => (x + d.1, y + d.2)).filter fun p => (vacantCells t).contains p

/-- `BoardGui.getAvailableMoves(pose)`. -/
def getAvailableMoves (t : Texts) (pose : Pos) : List Pos :=
  getAvailableMovesForPos t pose.1 pose.2

/-- `BoardGui.move(start, end)`: rejects (returning `False`, board
unchanged) any `end` outside `getAvailableMoves(start)`; otherwise the
row of `start` is scanned for its cell (modelled by the validity test —
an off-board `start` matches no cell and falls through to `False`), the
assertion `start cell non-empty` runs, and the texts are swapped. -/
def move (t : Texts) (s e : Pos) : Except PyErr (Bool × Texts) :=
  if e ∈ getAvailableMoves t s then
    if validPos s then
      match textAt t s with
      | none => Except.error PyErr.assertionError
      | some v =>
        if (textAt t e).isNone then Except.ok (true, setEntry (clearEntry t s) e v)
        else Except.ok (false, t)
    else Except.ok (false, t)
  else Except.ok (false, t)

/-- The `plausible_matches` table of `BoardGui.check3inRow`, verbatim. -/
def plausibleMatches : List (List Pos) :=
  [[(0, 0), (1, 1), (2, 2)],
   [(0, 6), (1, 5), (2, 4)],
   [(6, 0), (5, 1), (4, 2)],
   [(6, 6), (5, 5), (4, 4)],
   [(3, 1), (4, 2), (5, 3)],
   [(5, 3), (4, 4), (3, 5)],
   [(3, 1), (2, 2), (1, 3)],
   [(1, 3), (2, 4), (3, 5)],
   [(2, 2), (3, 2), (4, 2)],
   [(2, 4), (3, 4), (4, 4)],
   [(0, 3), (1, 3), (2, 3)],
   [(4, 3), (5, 3), (6, 3)],
   [(2, 2), (2, 3), (2, 4)],
   [(4, 2), (4, 3), (4, 4)],
   [(3, 0), (3, 1), (3, 2)],
   [(3, 4), (3, 5), (3, 6)]]

/-- The boolean content of `check3inRow(player, cur_move)`: some triple
of `plausible_matches` contains `cur_move` and lies entirely within the
player's `poses`. -/
def inMill (poses : List Pos) (cur : Pos) : Bool :=
  plausibleMatches.any fun m => m.contains cur && m.all fun q => poses.contains q

/-- `BoardGui.check3inRow` including its side effect: on success the
queried player's `numWin` counter is incremented (once — the function
returns at the first complete triple). -/
def check3inRow (numWin : ℕ) (poses : List Pos) (cur : Pos) : Bool × ℕ :=
  if inMill poses cur then (true, numWin + 1) else (false, numWin)

/-- The removal guard shared by `on_click`'s removal branch (line 290)
and `chooseRandomToRemove` (line 421):
`check3inRow(opponent, pos) == True and len(opponent.poses) > 3`. -/
def millProtected (poses : List Pos) (target : Pos) : Bool :=
  inMill poses target && decide (3 < poses.length)

/-- `GameSteps = ['Setup', 'Move', 'Remove']`. -/
inductive GameStep where
  | Setup : GameStep
  | Move : GameStep
  | Remove : GameStep
deriving DecidableEq, Repr

/-- The mutable fields of `BoardGui`/`NMMPlayer` that the `on_click`
logic reads and writes (buttons are represented by their texts). -/
structure GuiState where
  text : Texts
  poses1 : List Pos
  poses2 : List Pos
  tokens1 : ℕ
  tokens2 : ℕ
  step1 : GameStep
  picked1 : Option Pos
  toMove : Player
  numWin1 : ℕ
  numWin2 : ℕ
deriving Repr

/-- `BoardGui.check_win`: a win is only detected once both sides have
placed all tokens and one side is below three pieces. -/
def checkWin (st : GuiState) : Bool :=
  st.tokens1 == 0 && st.tokens2 == 0 &&
    (decide (st.poses1.length < 3) || decide (st.poses2.length < 3))

/-- Run `check3inRow(player, pos)` against the GUI state, applying the
`numWin` side effect to the queried player's counter. -/
def runCheck3 (st : GuiState) (p : Player) (pos : Pos) : Bool × GuiState :=
  match p with
  | Player.X =>
    let r := check3inRow st.numWin1 st.poses1 pos
    (r.1, { st with numWin1 := r.2 })
  | Player.O =>
    let r := check3inRow st.numWin2 st.poses2 pos
    (r.1, { st with numWin2 := r.2 })

/-- `if self.to_move == "X": self.to_move = "O" else: ... = "X"`. -/
def flipPlayer : Player → Player
  | Player.X => Player.O
  | Player.O => Player.X

/-- How a call of `on_click` leaves the player-1 half of the handler:
either the function returned before the `to_move` flip of lines 308-311
(`returned`), or control reached line 313 where player 2's
randomized reply begins, with `to_move` already flipped (`proceed`), or
an exception propagated (`crashed`). -/
inductive ClickOutcome where
  | returned : GuiState → ClickOutcome
  | proceed : GuiState → ClickOutcome
  | crashed : PyErr → ClickOutcome
deriving Repr

/-- The player-1 half of `BoardGui.on_click` (lines 218-311): the
`Setup` placement branch with its mill check, the `Move` branch
(picking, moving via `move`, mill check), and the `Remove` branch with
the mill-protection guard, win check and step restoration, followed —
when no branch returned — by the `to_move` flip.  Player 2's randomized
reply (from line 313 on) is outside this deterministic model; `proceed`
carries the state at that boundary. -/
def onClickP1 (st : GuiState) (pos : Pos) : ClickOutcome :=
  match st.step1 with
  | GameStep.Setup =>
    let st1 :=
      if 1 < st.tokens1 then
        { st with poses1 := st.poses1 ++ [pos], tokens1 := st.tokens1 - 1,
                  text := setEntry st.text pos st.toMove }
      else if st.tokens1 == 1 then
        { st with poses1 := st.poses1 ++ [pos], tokens1 := 0, step1 := GameStep.Move,
                  text := setEntry st.text pos st.toMove }
      else st
    let r := runCheck3 st1 st1.toMove pos
    if r.1 then ClickOutcome.returned { r.2 with step1 := GameStep.Remove }
    else ClickOutcome.proceed { r.2 with toMove := flipPlayer r.2.toMove }
  | GameStep.Move =>
    if pos ∈ st.poses1 then
      ClickOutcome.returned { st with picked1 := some pos }
    else
      match st.picked1 with
      | some start =>
        match move st.text start pos with
        | Except.error e => ClickOutcome.crashed e
        | Except.ok (false, _) => ClickOutcome.returned st
        | Except.ok (true, text') =>
          let st1 := { st with text := text', poses1 := st.poses1.erase start ++ [pos],
                               picked1 := none }
          let r := runCheck3 st1 st1.toMove pos
          if r.1 then ClickOutcome.returned { r.2 with step1 := GameStep.Remove }
          else ClickOutcome.proceed { r.2 with toMove := flipPlayer r.2.toMove }
      | none => ClickOutcome.proceed { st with toMove := flipPlayer st.toMove }
  | GameStep.Remove =>
    if pos ∈ st.poses2 then
      let r := runCheck3 st Player.O pos
      if r.1 && decide (3 < st.poses2.length) then ClickOutcome.returned r.2
      else
        let st2 := { r.2 with poses2 := r.2.poses2.erase pos,
                              text := clearEntry r.2.text pos }
        if checkWin st2 then ClickOutcome.returned st2
        else
          let st3 :=
            if st2.tokens1 == 0 then { st2 with step1 := GameStep.Move }
            else { st2 with step1 := GameStep.Setup }
          ClickOutcome.proceed { st3 with toMove := flipPlayer st3.toMove }
    else ClickOutcome.proceed { st with toMove := flipPlayer st.toMove }

/-- A board on which side `O` has exactly three placed pieces. -/
def fly3Board : Texts := [((0, 0), Player.O), ((0, 3), Player.O), ((2, 2), Player.O)]

/-- A concrete removal sub-phase state: player 1 must remove, player 2
holds a completed mill `(0,0),(1,1),(2,2)` plus the outside piece
`(5,1)`. -/
def removeProbeState : GuiState :=
  { text := [((0, 0), Player.O), ((1, 1), Player.O), ((2, 2), Player.O), ((5, 1), Player.O)],
    poses1 := [], poses2 := [(0, 0), (1, 1), (2, 2), (5, 1)],
    tokens1 := 5, tokens2 := 5, step1 := GameStep.Remove, picked1 := none,
    toMove := Player.X, numWin1 := 0, numWin2 := 0 }

/-- A concrete Setup-phase state in which player 1 holds two pieces of
the diagonal mill through `(2,2)`. -/
def setupMillState : GuiState :=
  { text := [((0, 0), Player.X), ((1, 1), Player.X)],
    poses1 := [(0, 0), (1, 1)], poses2 := [],
    tokens1 := 7, tokens2 := 9, step1 := GameStep.Setup, picked1 := none,
    toMove := Player.X, numWin1 := 0, numWin2 := 0 }

/-- A concrete removal sub-phase state in which player 2's three pieces
all lie in one mill, so the removal guard is off. -/
def removeOkState : GuiState :=
  { text := [((0, 0), Player.O), ((1, 1), Player.O), ((2, 2), Player.O)],
    poses1 := [], poses2 := [(0, 0), (1, 1), (2, 2)],
    tokens1 := 5, tokens2 := 5, step1 := GameStep.Remove, picked1 := none,
    toMove := Player.X, numWin1 := 0, numWin2 := 0 }

/-! ### Claim C5 -/

instance {ε δ : Type} [DecidableEq ε] [DecidableEq δ] : DecidableEq (Except ε δ) := fun a b =>
  match a, b with
  | Except.ok x, Except.ok y =>
    if h : x = y then Decidable.isTrue (by rw [h]) else Decidable.isFalse (by simp [h])
  | Except.error x, Except.error y =>
    if h : x = y then Decidable.isTrue (by rw [h]) else Decidable.isFalse (by simp [h])
  | Except.ok _, Except.error _ => Decidable.isFalse (by simp)
  | Except.error _, Except.ok _ => Decidable.isFalse (by simp)

/-- A concrete stochastic game refuting C5.  From the root `0`, action
`1` leads to a chance state with two equiprobable outcomes each worth
`1` (expected utility `1`); action `2` leads to a single certain
outcome worth `4/5` (expected utility `4/5`). -/
def expGame : StochGame ℕ ℕ ℕ where
  actions := fun s =>
    if s = 0 then [1, 2] else if s = 11 then [5] else if s = 12 then [6]
    else if s = 21 then [7] else []
  result := fun s a =>
    match s, a with
    | 0, 1 => 10
    | 0, 2 => 20
    | 11, 5 => 111
    | 12, 6 => 111
    | 21, 7 => 211
    | _, _ => 99
  utility := fun s _ => if s = 211 then 4 / 5 else if s = 111 then 1 else 0
  terminal_test := fun s => decide (s = 111 ∨ s = 211 ∨ s = 99)
  to_move := fun _ => Player.X
  chances := fun s => if s = 10 then [1, 2] else if s = 20 then [3] else []
  outcome := fun _ c => if c = 1 then 11 else if c = 2 then 12 else if c = 3 then 21 else 99
  probability := fun c => if c = 3 then 1 else 1 / 2

/-- The value the claim describes for a root action, written from the
claim's words: the expected utility over all chance outcomes of the
*resulting* state — each outcome taken from that same resulting state —
with each outcome's utility weighted by its probability and summed (no
further division).  The utility of an outcome state is computed by the
same `max_value`/`min_value` continuation the code uses. -/
def specExpSum {σ α χ : Type} (g : StochGame σ α χ) (valueOf : σ → Except PyErr F) (res : σ) :
    List χ → F → Except PyErr F
  | [], acc => Except.ok acc
  | c :: cs, acc => do
    let util ← valueOf (g.outcome res c)
    specExpSum g valueOf res cs (F.add acc (F.mul util (F.q (g.probability c))))

/-- See `specExpSum`: the claim's expected-utility valuation of a root
action. -/
def specExpectedValue {σ α χ : Type} (g : StochGame σ α χ) (p : Player) (fuel : ℕ)
    (state : σ) (action : α) : Except PyErr F :=
  let res := g.result state action
  if g.terminal_test res then Except.ok (F.q (g.utility res p))
  else
    specExpSum g
      (fun s => if g.to_move s = p then emVal g p true fuel s else emVal g p false fuel s)
      res (g.chances res) (F.q 0)

/-- The fail-soft relation between an alpha-beta result `r` and the
corresponding exact minimax value `t` under window `(al, be)`. -/
def FS (r t al be : XR) : Prop :=
  (t ≤ al → r ≤ al) ∧ (al < t → t < be → r = t) ∧ (be ≤ t → be ≤ r)

/-- A small two-state, two-action game for the C4 witness. -/
def wGame : Game (Fin 2) (Fin 2) where
  actions := fun s => if s = 0 then [0, 1] else []
  result := fun _ _ => 1
  utility := fun _ _ => 1
  terminal_test := fun s => decide (s ≠ 0)
  to_move := fun _ => Player.X

/-! ## Helper lemmas, claim theorems, counterexamples and witnesses -/

/-! ### Claims C1, C2, C9 -/

/-- C1, counterexample.  The claim says `apply(state, action)` fails with
an `IllegalActionError` for an action outside `legalActions(state)`.  At
the concrete state with an empty move collection and the illegal action
`(1, 1)`, `NMensMorris.result` raises nothing and *returns* the state. -/
theorem c1_counterexample :
    NMensMorris.result NMensMorris.initial (1, 1) = Except.ok NMensMorris.initial := by
  rfl

/-- C1, amended: for every state and every action not contained in
`state.moves`, `result` raises no error and returns the input state
unchanged (the source comments `# Illegal move has no effect`); the
atomicity half of the claim holds because the returned state *is* the
input state. -/
theorem c1_amended (state : GameState) (move : ℕ × ℕ) (h : move ∉ state.moves) :
    NMensMorris.result state move = Except.ok state := by
  simp [NMensMorris.result, h]

/-- C1, witness for `c1_amended`. -/
theorem c1_witness :
    (1, 1) ∉ NMensMorris.initial.moves ∧
      NMensMorris.result NMensMorris.initial (1, 1) = Except.ok NMensMorris.initial :=
  ⟨by decide, c1_amended NMensMorris.initial (1, 1) (by decide)⟩

/-- C2: for every `GameState` with a non-empty moves collection, applying
any move contained in it reads the missing attribute `game` and fails
with an `AttributeError`, while every move outside the collection
returns the unchanged state normally. -/
theorem c2_result_attribute_error (state : GameState) (move : ℕ × ℕ) :
    (move ∈ state.moves → NMensMorris.result state move = Except.error PyErr.attributeError) ∧
      (move ∉ state.moves → NMensMorris.result state move = Except.ok state) := by
  constructor
  · intro h; simp [NMensMorris.result, h]
  · intro h; simp [NMensMorris.result, h]

/-- C2, witness: a state whose moves collection is non-empty, a legal
move failing with `AttributeError`, and an illegal move returning the
unchanged state. -/
theorem c2_witness :
    NMensMorris.result { to_move := Player.X, utility := 0, board := [], moves := [(1, 1)] } (1, 1)
        = Except.error PyErr.attributeError ∧
      NMensMorris.result { to_move := Player.X, utility := 0, board := [], moves := [(1, 1)] } (2, 2)
        = Except.ok { to_move := Player.X, utility := 0, board := [], moves := [(1, 1)] } :=
  ⟨(c2_result_attribute_error _ (1, 1)).1 (by decide),
   (c2_result_attribute_error _ (2, 2)).2 (by decide)⟩

/-- C3, counterexample.  On a root state with an empty action set,
`minmax_decision` does *not* return a "no move available" result: it
calls `max` on an empty sequence, which raises `ValueError` — the claim
that all four strategies never throw is false. -/
theorem c3_counterexample :
    minmax_decision trivGame 1 () = Except.error PyErr.valueError ∧
      alpha_beta_search trivGame 1 () = none ∧
      alpha_beta_cutoff_search trivGame 4 () = none ∧
      expect_minmax trivStochGame 1 () = Except.ok none :=
  ⟨rfl, rfl, rfl, rfl⟩

/-- C3, amended: on a root state with an empty action set,
`alpha_beta_search` and `alpha_beta_cutoff_search` return `None` and
`expect_minmax` returns `None` (via `default=None`) without raising;
`minmax_decision` instead raises `ValueError` (Python `max` of an empty
sequence), so only three of the four strategies report "no move
available" distinctly and never throw. -/
theorem c3_amended {σ α σ' α' χ : Type} (g : Game σ α) (sg : StochGame σ' α' χ)
    (fuel fuel' d : ℕ) (s : σ) (s' : σ')
    (h : g.actions s = []) (h' : sg.actions s' = []) :
    minmax_decision g fuel s = Except.error PyErr.valueError ∧
      alpha_beta_search g fuel s = none ∧
      alpha_beta_cutoff_search g d s = none ∧
      expect_minmax sg fuel' s' = Except.ok none := by
  refine ⟨?_, ?_, ?_, ?_⟩
  · simp [minmax_decision, h, pymaxKey]
  · simp [alpha_beta_search, h, absRootGo]
  · simp [alpha_beta_cutoff_search, h, abcRootGo]
  · simp [expect_minmax, h', pymaxDefaultNone]

/-- C3, witness for `c3_amended`. -/
theorem c3_witness :
    minmax_decision trivGame 2 () = Except.error PyErr.valueError ∧
      alpha_beta_search trivGame 2 () = none ∧
      alpha_beta_cutoff_search trivGame 3 () = none ∧
      expect_minmax trivStochGame 2 () = Except.ok none :=
  c3_amended trivGame trivStochGame 2 2 3 () () rfl rfl

/-- C9: the initial state constructed by `NMensMorris.__init__` has an
empty moves collection, so `actions(initial)` is empty and
`terminal_test(initial)` is true: the game is terminal before any action
has been taken. -/
theorem c9_initial_terminal :
    NMensMorris.actions NMensMorris.initial = [] ∧
      NMensMorris.terminal_test NMensMorris.initial = true := by
  decide

/-! ### Claims C6, C7, C8, C10 -/

/-- Every triple of `plausible_matches` has exactly three pairwise
distinct positions. -/
theorem plausibleMatches_len_nodup : ∀ m ∈ plausibleMatches, m.length = 3 ∧ m.Nodup := by
  decide

/-- Membership characterization of `inMill`. -/
theorem inMill_iff (poses : List Pos) (cur : Pos) :
    inMill poses cur = true ↔
      ∃ m ∈ plausibleMatches, cur ∈ m ∧ ∀ q ∈ m, q ∈ poses := by
  simp [inMill, List.any_eq_true, List.all_eq_true]

/-- If a complete mill lies inside `poses` and some element of `poses`
is outside that mill, then `poses` has more than three entries. -/
theorem length_lt_of_mill_and_outside {poses m : List Pos} {q : Pos}
    (hm : m ∈ plausibleMatches) (hsub : ∀ x ∈ m, x ∈ poses)
    (hq : q ∈ poses) (hqm : q ∉ m) : 3 < poses.length := by
  obtain ⟨hlen, hnd⟩ := plausibleMatches_len_nodup m hm
  have hcard : m.toFinset.card = 3 := by rw [List.toFinset_card_of_nodup hnd, hlen]
  have hqn : q ∉ m.toFinset := by simpa using hqm
  have hins : (insert q m.toFinset).card = 4 := by
    rw [Finset.card_insert_of_not_mem hqn, hcard]
  have hsub2 : insert q m.toFinset ⊆ poses.toFinset := by
    intro x hx
    rcases Finset.mem_insert.mp hx with rfl | hxm
    · exact List.mem_toFinset.mpr hq
    · exact List.mem_toFinset.mpr (hsub x (List.mem_toFinset.mp hxm))
  have h1 := Finset.card_le_card hsub2
  have h2 := poses.toFinset_card_le
  omega

/-- If a complete mill lies inside a `poses` list of at most three
entries, every entry of `poses` belongs to that mill. -/
theorem mem_mill_of_short {poses m : List Pos} (hm : m ∈ plausibleMatches)
    (hsub : ∀ x ∈ m, x ∈ poses) (hlen : poses.length ≤ 3) :
    ∀ p ∈ poses, p ∈ m := by
  intro p hp
  by_contra hpm
  exact absurd (length_lt_of_mill_and_outside hm hsub hp hpm) (by omega)

/-- C6: for a removal target inside a completed 3-in-a-row, (i) if some
opponent piece lies outside every completed 3-in-a-row, the removal
guard of `on_click`'s removal branch / `chooseRandomToRemove`
(`check3inRow(...) and len(poses) > 3`) fires, so the piece cannot be
removed; (ii) if the guard does not fire, every opponent piece belongs
to some completed 3-in-a-row — the mill-protection rule as claimed. -/
theorem c6_mill_protection (poses : List Pos) (target : Pos)
    (h1 : inMill poses target = true) :
    ((∃ q ∈ poses, inMill poses q = false) → millProtected poses target = true) ∧
      (millProtected poses target = false → ∀ p ∈ poses, inMill poses p = true) := by
  obtain ⟨m, hm, hcur, hsub⟩ := (inMill_iff poses target).mp h1
  constructor
  · rintro ⟨q, hq, hqmill⟩
    have hqm : q ∉ m := fun hqm =>
      absurd ((inMill_iff poses q).mpr ⟨m, hm, hqm, hsub⟩) (by simp [hqmill])
    have hl := length_lt_of_mill_and_outside hm hsub hq hqm
    simp [millProtected, h1, hl]
  · intro hnp p hp
    have hlen : poses.length ≤ 3 := by
      by_contra hl
      simp [millProtected, h1] at hnp
      omega
    exact (inMill_iff poses p).mpr ⟨m, hm, mem_mill_of_short hm hsub hlen p hp, hsub⟩

/-- C6, witness: with opponent pieces `[(0,0),(1,1),(2,2),(5,1)]` — a
completed diagonal mill plus the outside piece `(5,1)` — the mill piece
`(0,0)` is protected; and when the guard is off every piece is in a
mill. -/
theorem c6_witness :
    millProtected [(0, 0), (1, 1), (2, 2), (5, 1)] (0, 0) = true ∧
      ∀ p ∈ ([(0, 0), (1, 1), (2, 2)] : List Pos),
        inMill [(0, 0), (1, 1), (2, 2)] p = true :=
  ⟨(c6_mill_protection [(0, 0), (1, 1), (2, 2), (5, 1)] (0, 0) (by decide)).1
      ⟨(5, 1), by decide, by decide⟩,
   (c6_mill_protection [(0, 0), (1, 1), (2, 2)] (0, 0) (by decide)).2 (by decide)⟩

/-- C7, counterexample.  Side B (`O`) has exactly three on-board pieces
(all nine tokens notionally placed — the move functions never consult
the token counters), `(3,6)` is an empty board point, yet
`getAvailableMovesForPos` does not offer it from `(0,0)` and `move`
rejects the flight: no flying phase exists in the code. -/
theorem c7_counterexample :
    (fly3Board.filter fun e => e.2 == Player.O).length = 3 ∧
      validPos (3, 6) = true ∧ textAt fly3Board (3, 6) = none ∧
      (3, 6) ∉ getAvailableMovesForPos fly3Board 0 0 ∧
      move fly3Board (0, 0) (3, 6) = Except.ok (false, fly3Board) :=
  ⟨by decide, by decide, by decide, by decide, rfl⟩

set_option maxHeartbeats 1000000 in
/-- C7, amended: in every state — in particular when a side has exactly
three on-board pieces and no unplaced tokens — the legal destinations
from `(x,y)` are exactly the vacant board points within coordinate
distance 1 in each axis (the 3×3 neighborhood); `move` rejects every
other destination and leaves the board unchanged.  The code implements
no flying. -/
theorem c7_amended (t : Texts) (x y : ℤ) (p : Pos) :
    (p ∈ getAvailableMovesForPos t x y ↔
      p ∈ vacantCells t ∧ (p.1 - x).natAbs ≤ 1 ∧ (p.2 - y).natAbs ≤ 1) ∧
      ∀ s e : Pos, e ∉ getAvailableMoves t s → move t s e = Except.ok (false, t) := by
  obtain ⟨p1, p2⟩ := p
  constructor
  · constructor
    · intro hmem
      obtain ⟨hmap, hvac⟩ := List.mem_filter.mp hmem
      obtain ⟨d, hd, heq⟩ := List.mem_map.mp hmap
      obtain ⟨rfl, rfl⟩ := Prod.mk.injEq .. ▸ heq
      refine ⟨by simpa using hvac, ?_, ?_⟩ <;>
        · simp only [neighborOffsets, List.mem_cons, List.not_mem_nil, or_false] at hd
          rcases hd with rfl | rfl | rfl | rfl | rfl | rfl | rfl | rfl | rfl <;> omega
    · rintro ⟨hvac, h1, h2⟩
      refine List.mem_filter.mpr
        ⟨List.mem_map.mpr ⟨(p1 - x, p2 - y), ?_, ?_⟩, by simpa using hvac⟩
      · simp only [neighborOffsets, List.mem_cons, List.not_mem_nil, or_false, Prod.mk.injEq]
        omega
      · simp only [Prod.mk.injEq]
        constructor <;> omega
  · intro s e he
    rw [getAvailableMoves] at he
    simp [move, getAvailableMoves, he]

/-- C7, witness for `c7_amended`. -/
theorem c7_witness :
    (1, 1) ∈ getAvailableMovesForPos fly3Board 0 0 ∧
      move fly3Board (2, 2) (0, 5) = Except.ok (false, fly3Board) :=
  ⟨(c7_amended fly3Board 0 0 (1, 1)).1.mpr ⟨by decide, by decide, by decide⟩,
   (c7_amended fly3Board 0 0 (1, 1)).2 (2, 2) (0, 5) (by decide)⟩

/-- C8: (placement) when player 1's `Setup` click completes a mill, the
handler returns *before* the `to_move` flip with `step = 'Remove'` — the
pending-removal sub-phase is entered and the side to move is unchanged;
(move) likewise for a mill completed by a successful `Move`-step
move; (removal) once the removal click is applied, control reaches the
flip and the turn passes to the opponent. -/
theorem c8_mill_pending_removal :
    (∀ (st : GuiState) (pos : Pos), st.step1 = GameStep.Setup → st.toMove = Player.X →
        1 ≤ st.tokens1 → inMill (st.poses1 ++ [pos]) pos = true →
        ∃ st', onClickP1 st pos = ClickOutcome.returned st' ∧ st'.step1 = GameStep.Remove ∧
          st'.toMove = Player.X ∧ st'.poses1 = st.poses1 ++ [pos]) ∧
      (∀ (st : GuiState) (start pos : Pos) (text' : Texts), st.step1 = GameStep.Move →
        st.toMove = Player.X → pos ∉ st.poses1 → st.picked1 = some start →
        move st.text start pos = Except.ok (true, text') →
        inMill (st.poses1.erase start ++ [pos]) pos = true →
        ∃ st', onClickP1 st pos = ClickOutcome.returned st' ∧ st'.step1 = GameStep.Remove ∧
          st'.toMove = Player.X) ∧
      ∀ (st : GuiState) (pos : Pos), st.step1 = GameStep.Remove → pos ∈ st.poses2 →
        millProtected st.poses2 pos = false → st.tokens1 ≠ 0 →
        ∃ st', onClickP1 st pos = ClickOutcome.proceed st' ∧
          st'.toMove = flipPlayer st.toMove ∧ st'.poses2 = st.poses2.erase pos := by
  refine ⟨?_, ?_, ?_⟩
  · intro st pos hstep htm htok hmill
    obtain ⟨tx, ps1, ps2, tk1, tk2, stp, pk, tm, n1, n2⟩ := st
    dsimp only at hstep htm htok hmill ⊢
    subst hstep; subst htm
    by_cases h1 : 1 < tk1
    · exact ⟨⟨setEntry tx pos Player.X, ps1 ++ [pos], ps2, tk1 - 1, tk2, GameStep.Remove, pk,
          Player.X, n1 + 1, n2⟩,
        by simp [onClickP1, h1, runCheck3, check3inRow, hmill], rfl, rfl, rfl⟩
    · have h0 : tk1 = 1 := by omega
      subst h0
      exact ⟨⟨setEntry tx pos Player.X, ps1 ++ [pos], ps2, 0, tk2, GameStep.Remove, pk,
          Player.X, n1 + 1, n2⟩,
        by simp [onClickP1, runCheck3, check3inRow, hmill], rfl, rfl, rfl⟩
  · intro st start pos text' hstep htm hpos hpick hmv hmill
    obtain ⟨tx, ps1, ps2, tk1, tk2, stp, pk, tm, n1, n2⟩ := st
    dsimp only at hstep htm hpos hpick hmv hmill ⊢
    subst hstep; subst htm; subst hpick
    exact ⟨⟨text', ps1.erase start ++ [pos], ps2, tk1, tk2, GameStep.Remove, none,
        Player.X, n1 + 1, n2⟩,
      by simp [onClickP1, hpos, hmv, runCheck3, check3inRow, hmill], rfl, rfl⟩
  · intro st pos hstep hmem hguard htok
    obtain ⟨tx, ps1, ps2, tk1, tk2, stp, pk, tm, n1, n2⟩ := st
    dsimp only at hstep hmem hguard htok ⊢
    subst hstep
    cases hbm : inMill ps2 pos with
    | false =>
      exact ⟨⟨clearEntry tx pos, ps1, ps2.erase pos, tk1, tk2, GameStep.Setup, pk,
          flipPlayer tm, n1, n2⟩,
        by simp [onClickP1, hmem, runCheck3, check3inRow, hbm, checkWin, htok], rfl, rfl⟩
    | true =>
      have hlen : ¬ (3 < ps2.length) := by
        simp [millProtected, hbm] at hguard
        omega
      exact ⟨⟨clearEntry tx pos, ps1, ps2.erase pos, tk1, tk2, GameStep.Setup, pk,
          flipPlayer tm, n1, n2 + 1⟩,
        by simp [onClickP1, hmem, runCheck3, check3inRow, hbm, hlen, checkWin, htok], rfl, rfl⟩

/-- C8, witness for `c8_mill_pending_removal`: a mill-completing
placement enters the removal sub-phase with `to_move` still `X`, and an
applied removal flips the turn. -/
theorem c8_witness :
    (∃ st', onClickP1 setupMillState (2, 2) = ClickOutcome.returned st' ∧
        st'.step1 = GameStep.Remove ∧ st'.toMove = Player.X ∧
        st'.poses1 = setupMillState.poses1 ++ [(2, 2)]) ∧
      ∃ st', onClickP1 removeOkState (1, 1) = ClickOutcome.proceed st' ∧
        st'.toMove = flipPlayer removeOkState.toMove ∧
        st'.poses2 = removeOkState.poses2.erase (1, 1) :=
  ⟨c8_mill_pending_removal.1 setupMillState (2, 2) rfl rfl (by decide) (by decide),
   c8_mill_pending_removal.2.2 removeOkState (1, 1) rfl (by decide) (by decide) (by decide)⟩

/-- C10: `check3inRow` is not a pure query — whenever the queried
position lies in a completed triple of the queried player's pieces, the
call increments that player's `numWin` counter; in particular the
protection-probe call in `on_click`'s removal branch increments
player 2's counter even when the removal is refused and no action is
applied at all, so `numWin` can exceed the number of mill-completing
actions actually played. -/
theorem c10_check3inRow_side_effect :
    (∀ (numWin : ℕ) (poses : List Pos) (cur : Pos), inMill poses cur = true →
        check3inRow numWin poses cur = (true, numWin + 1)) ∧
      ∀ (st : GuiState) (pos : Pos), st.step1 = GameStep.Remove → pos ∈ st.poses2 →
        inMill st.poses2 pos = true → 3 < st.poses2.length →
        onClickP1 st pos = ClickOutcome.returned { st with numWin2 := st.numWin2 + 1 } := by
  constructor
  · intro n poses cur h
    simp [check3inRow, h]
  · intro st pos hstep hmem hmill hlen
    obtain ⟨tx, ps1, ps2, tk1, tk2, stp, pk, tm, n1, n2⟩ := st
    dsimp only at hstep hmem hmill hlen ⊢
    subst hstep
    simp [onClickP1, hmem, runCheck3, check3inRow, hmill, hlen]

/-- C10, witness: probing the protected piece `(0,0)` refuses the
removal yet increments player 2's `numWin`. -/
theorem c10_witness :
    onClickP1 removeProbeState (0, 0) =
      ClickOutcome.returned { removeProbeState with numWin2 := removeProbeState.numWin2 + 1 } :=
  c10_check3inRow_side_effect.2 removeProbeState (0, 0) rfl (by decide) (by decide) (by decide)

/-- Python float `>` is irreflexive. -/
theorem F.gt_irrefl (a : F) : F.gt a a = false := by
  cases a <;> simp [F.gt]

/-- Python float `>` is asymmetric. -/
theorem F.gt_asymm {a b : F} (h : F.gt a b = true) : F.gt b a = false := by
  cases a <;> cases b <;> simp_all [F.gt] <;> linarith

/-- Python float `>` is transitive. -/
theorem F.gt_trans {a b c : F} (h1 : F.gt a b = true) (h2 : F.gt b c = true) :
    F.gt a c = true := by
  cases a <;> cases b <;> cases c <;> simp_all [F.gt] <;> linarith

/-- `Except` bind on a success. -/
theorem except_bind_ok {ε α β : Type} (a : α) (f : α → Except ε β) :
    (Except.ok a >>= f) = f a := rfl

/-- `Except` bind on an error. -/
theorem except_bind_error {ε α β : Type} (e : ε) (f : α → Except ε β) :
    (Except.error e >>= f) = Except.error e := rfl

/-- Specification of the `max(..., key=...)` loop with a fallible key:
if it returns `b`, then `b` was among the candidates, its key `kb`
evaluated without an exception, `kb` never compares below the key of the
seed, and no candidate's key compares strictly greater than `kb`. -/
theorem pymaxGoE_spec {α β ε : Type} (key : α → Except ε β) (gt : β → β → Bool)
    (hirr : ∀ x, gt x x = false)
    (hasym : ∀ x y, gt x y = true → gt y x = false)
    (htrans : ∀ x y z, gt x y = true → gt y z = true → gt x z = true) :
    ∀ (xs : List α) (cur : α) (kc : β) (b : α),
      key cur = Except.ok kc → pymaxGoE key gt xs cur kc = Except.ok b →
      ∃ kb, key b = Except.ok kb ∧ (b = cur ∨ b ∈ xs) ∧ (kb = kc ∨ gt kb kc = true) ∧
        gt kc kb = false ∧ ∀ a ∈ xs, ∃ ka, key a = Except.ok ka ∧ gt ka kb = false := by
  intro xs
  induction xs with
  | nil =>
    intro cur kc b hk hrun
    simp only [pymaxGoE, Except.ok.injEq] at hrun
    subst hrun
    exact ⟨kc, hk, Or.inl rfl, Or.inl rfl, hirr kc, by simp⟩
  | cons x xs ih =>
    intro cur kc b hk hrun
    simp only [pymaxGoE] at hrun
    rcases hkx : key x with e | kx
    · rw [hkx, except_bind_error] at hrun
      exact absurd hrun (by simp)
    · rw [hkx, except_bind_ok] at hrun
      by_cases hgt : gt kx kc = true
      · rw [if_pos hgt] at hrun
        obtain ⟨kb, hkb, hbmem, hrel, hkxkb, hall⟩ := ih x kx b hkx hrun
        refine ⟨kb, hkb, ?_, ?_, ?_, ?_⟩
        · rcases hbmem with rfl | hbmem
          · exact Or.inr (List.mem_cons_self _ _)
          · exact Or.inr (List.mem_cons_of_mem _ hbmem)
        · rcases hrel with rfl | hrel
          · exact Or.inr hgt
          · exact Or.inr (htrans _ _ _ hrel hgt)
        · rcases hrel with rfl | hrel
          · exact hasym _ _ hgt
          · by_contra hc
            rw [Bool.not_eq_false] at hc
            have hcx := htrans _ _ _ hc hrel
            rw [hasym _ _ hgt] at hcx
            exact Bool.false_ne_true hcx
        · intro a ha
          rcases List.mem_cons.mp ha with rfl | ha
          · exact ⟨kx, hkx, hkxkb⟩
          · exact hall a ha
      · rw [if_neg hgt] at hrun
        obtain ⟨kb, hkb, hbmem, hrel, hkckb, hall⟩ := ih cur kc b hk hrun
        refine ⟨kb, hkb, ?_, hrel, hkckb, ?_⟩
        · rcases hbmem with rfl | hbmem
          · exact Or.inl rfl
          · exact Or.inr (List.mem_cons_of_mem _ hbmem)
        · intro a ha
          rcases List.mem_cons.mp ha with rfl | ha
          · refine ⟨kx, hkx, ?_⟩
            rcases hrel with rfl | hrel
            · simpa using hgt
            · by_contra hc
              rw [Bool.not_eq_false] at hc
              exact hgt (htrans _ _ _ hc hrel)
          · exact hall a ha

/-- Specification of `max(iterable, key=..., default=None)` with a
fallible key: a returned element belongs to the iterable, its key
evaluated, and no element's key compares strictly greater. -/
theorem pymaxDefaultNone_spec {α β ε : Type} (key : α → Except ε β) (gt : β → β → Bool)
    (hirr : ∀ x, gt x x = false)
    (hasym : ∀ x y, gt x y = true → gt y x = false)
    (htrans : ∀ x y z, gt x y = true → gt y z = true → gt x z = true)
    (l : List α) (b : α) (hrun : pymaxDefaultNone key gt l = Except.ok (some b)) :
    b ∈ l ∧ ∃ kb, key b = Except.ok kb ∧
      ∀ a ∈ l, ∃ ka, key a = Except.ok ka ∧ gt ka kb = false := by
  cases l with
  | nil => exact absurd hrun (by simp [pymaxDefaultNone])
  | cons a rest =>
    simp only [pymaxDefaultNone] at hrun
    rcases hka : key a with e | ka
    · rw [hka, except_bind_error] at hrun
      exact absurd hrun (by simp)
    · rw [hka, except_bind_ok] at hrun
      rcases hgo : pymaxGoE key gt rest a ka with e | b'
      · rw [hgo, except_bind_error] at hrun
        exact absurd hrun (by simp)
      · rw [hgo, except_bind_ok] at hrun
        simp only [pure, Except.pure, Except.ok.injEq, Option.some.injEq] at hrun
        subst hrun
        obtain ⟨kb, hkb, hbmem, _, hkakb, hall⟩ :=
          pymaxGoE_spec key gt hirr hasym htrans rest a ka b' hka hgo
        refine ⟨?_, kb, hkb, ?_⟩
        · rcases hbmem with rfl | hbmem
          · exact List.mem_cons_self _ _
          · exact List.mem_cons_of_mem _ hbmem
        · intro x hx
          rcases List.mem_cons.mp hx with rfl | hx
          · exact ⟨ka, hka, hkakb⟩
          · exact hall x hx

/-- C5, amended: when `expect_minmax` returns an action, that action is
a root action whose chance-node value — the probability-weighted
utility sum over successively applied outcomes *divided by the number
of outcomes* — is maximal: no root action has a strictly greater
chance-node value.  (By `c5_counterexample` this quantity is not the
expected utility the claim describes.) -/
theorem c5_amended {σ α χ : Type} (g : StochGame σ α χ) (fuel : ℕ) (state : σ) (b : α)
    (hrun : expect_minmax g fuel state = Except.ok (some b)) :
    b ∈ g.actions state ∧
      ∃ kb, chanceNodeAux g (g.to_move state) (emVal g (g.to_move state) true fuel)
          (emVal g (g.to_move state) false fuel) state b = Except.ok kb ∧
        ∀ a ∈ g.actions state,
          ∃ ka, chanceNodeAux g (g.to_move state) (emVal g (g.to_move state) true fuel)
              (emVal g (g.to_move state) false fuel) state a = Except.ok ka ∧
            F.gt ka kb = false := by
  refine pymaxDefaultNone_spec _ F.gt F.gt_irrefl ?_ ?_ (g.actions state) b hrun
  · intro x y h
    exact F.gt_asymm h
  · intro x y z h1 h2
    exact F.gt_trans h1 h2

/-- C5, counterexample.  In `expGame`, action `1` has expected utility
`1` and action `2` has expected utility `4/5`, yet the code values
action `1` at `(1/2·1 + 1/2·1) / 2 = 1/2` — the weighted sum divided by
the number of outcomes — and therefore returns action `2`, which does
*not* maximize the expected utility. -/
theorem c5_counterexample :
    expect_minmax expGame 3 0 = Except.ok (some 2) ∧
      specExpectedValue expGame Player.X 3 0 1 = Except.ok (F.q 1) ∧
      specExpectedValue expGame Player.X 3 0 2 = Except.ok (F.q (4 / 5)) ∧
      chanceNodeAux expGame Player.X (emVal expGame Player.X true 3)
        (emVal expGame Player.X false 3) 0 1 = Except.ok (F.q (1 / 2)) ∧
      F.gt (F.q 1) (F.q (4 / 5)) = true := by
  refine ⟨?_, ?_, ?_, ?_, ?_⟩ <;>
    norm_num [expect_minmax, pymaxDefaultNone, pymaxGoE, specExpectedValue, specExpSum,
      chanceNodeAux, chanceLoop, emVal, emFold, expGame, F.add, F.mul, F.divNat, F.pymax,
      F.gt, except_bind_ok]

/-- C5, witness for `c5_amended` at the concrete game. -/
theorem c5_witness :
    2 ∈ expGame.actions 0 ∧
      ∃ kb, chanceNodeAux expGame (expGame.to_move 0) (emVal expGame (expGame.to_move 0) true 3)
          (emVal expGame (expGame.to_move 0) false 3) 0 2 = Except.ok kb ∧
        ∀ a ∈ expGame.actions 0,
          ∃ ka, chanceNodeAux expGame (expGame.to_move 0)
              (emVal expGame (expGame.to_move 0) true 3)
              (emVal expGame (expGame.to_move 0) false 3) 0 a = Except.ok ka ∧
            F.gt ka kb = false :=
  c5_amended expGame 3 0 2 (by
    norm_num [expect_minmax, pymaxDefaultNone, pymaxGoE, chanceNodeAux, chanceLoop, emVal,
      emFold, expGame, F.add, F.mul, F.divNat, F.pymax, F.gt, except_bind_ok])

/-! ### Claim C4: alpha-beta agrees with minimax

The correctness argument is the classical fail-soft bound: relative to
the minimax value `t` of the same (fuel-cut) subtree, a call
`abVal … alpha beta` returns exactly `t` when `alpha < t < beta`, at
most `alpha` when `t ≤ alpha`, and at least `beta` when `beta ≤ t`. -/

/-- `⊤` of `XR` is `np.inf`. -/
theorem XR.pInf_eq_top : XR.pInf = (⊤ : XR) := rfl

/-- An exact result is fail-soft. -/
theorem FS_refl (t al be : XR) : FS t t al be :=
  ⟨fun h => h, fun _ _ => rfl, fun h => h⟩

/-- Upper bounds of a `max`-fold. -/
theorem foldlMax_le_iff {α : Type} (tv : α → XR) (c : XR) :
    ∀ (l : List α) (v : XR),
      l.foldl (fun w a => max w (tv a)) v ≤ c ↔ v ≤ c ∧ ∀ a ∈ l, tv a ≤ c := by
  intro l
  induction l with
  | nil => intro v; simp
  | cons a l ih =>
    intro v
    simp only [List.foldl_cons]
    rw [ih]
    simp only [max_le_iff, List.mem_cons]
    constructor
    · rintro ⟨⟨h1, h2⟩, h3⟩
      exact ⟨h1, fun x hx => hx.elim (fun e => e ▸ h2) (h3 x)⟩
    · rintro ⟨h1, h2⟩
      exact ⟨⟨h1, h2 a (Or.inl rfl)⟩, fun x hx => h2 x (Or.inr hx)⟩

/-- Lower bounds of a `min`-fold. -/
theorem foldlMin_le_iff {α : Type} (tv : α → XR) (c : XR) :
    ∀ (l : List α) (v : XR),
      c ≤ l.foldl (fun w a => min w (tv a)) v ↔ c ≤ v ∧ ∀ a ∈ l, c ≤ tv a := by
  intro l
  induction l with
  | nil => intro v; simp
  | cons a l ih =>
    intro v
    simp only [List.foldl_cons]
    rw [ih]
    simp only [le_min_iff, List.mem_cons]
    constructor
    · rintro ⟨⟨h1, h2⟩, h3⟩
      exact ⟨h1, fun x hx => hx.elim (fun e => e ▸ h2) (h3 x)⟩
    · rintro ⟨h1, h2⟩
      exact ⟨⟨h1, h2 a (Or.inl rfl)⟩, fun x hx => h2 x (Or.inr hx)⟩

/-- A `max`-fold decomposes as `max` of its seed and the `⊥`-seeded
fold. -/
theorem foldlMax_init {α : Type} (tv : α → XR) :
    ∀ (l : List α) (v : XR),
      l.foldl (fun w a => max w (tv a)) v =
        max v (l.foldl (fun w a => max w (tv a)) ⊥) := by
  intro l
  induction l with
  | nil => intro v; simp
  | cons a l ih =>
    intro v
    simp only [List.foldl_cons]
    rw [ih (max v (tv a)), ih (max ⊥ (tv a))]
    rw [max_assoc]
    congr 1
    simp

/-- A `min`-fold decomposes as `min` of its seed and the `⊤`-seeded
fold. -/
theorem foldlMin_init {α : Type} (tv : α → XR) :
    ∀ (l : List α) (v : XR),
      l.foldl (fun w a => min w (tv a)) v =
        min v (l.foldl (fun w a => min w (tv a)) ⊤) := by
  intro l
  induction l with
  | nil => intro v; simp
  | cons a l ih =>
    intro v
    simp only [List.foldl_cons]
    rw [ih (min v (tv a)), ih (min ⊤ (tv a))]
    rw [min_assoc]
    congr 1
    simp

/-- Seed bound for `max`-folds. -/
theorem le_foldlMax_self {α : Type} (tv : α → XR) (l : List α) (v : XR) :
    v ≤ l.foldl (fun w a => max w (tv a)) v :=
  ((foldlMax_le_iff tv _ l v).mp le_rfl).1

/-- Seed bound for `min`-folds. -/
theorem foldlMin_le_self {α : Type} (tv : α → XR) (l : List α) (v : XR) :
    l.foldl (fun w a => min w (tv a)) v ≤ v :=
  ((foldlMin_le_iff tv _ l v).mp le_rfl).1

/-- Fail-soft invariant of the `max_value` loop of `alpha_beta_search`:
if every child call is fail-soft with respect to its exact value, the
loop result is fail-soft with respect to the `max`-fold of the exact
values, for the entry invariant `alpha = max alpha₀ v`. -/
theorem abGoMax_spec {α : Type} (next : α → XR → XR → XR) (tv : α → XR) (be0 : XR)
    (hnext : ∀ a al be, FS (next a al be) (tv a) al be) :
    ∀ (l : List α) (v al0 : XR),
      FS (abGoMax next l v (max al0 v) be0)
        (l.foldl (fun w a => max w (tv a)) v) al0 be0 := by
  intro l
  induction l with
  | nil =>
    intro v al0
    simpa [abGoMax] using FS_refl v al0 be0
  | cons a l ih =>
    intro v al0
    have hFa := hnext a (max al0 v) be0
    simp only [abGoMax, List.foldl_cons]
    by_cases hret : be0 ≤ max v (next a (max al0 v) be0)
    · rw [if_pos hret]
      refine ⟨?_, ?_, ?_⟩
      · intro hT
        rw [foldlMax_le_iff] at hT
        obtain ⟨hvu, -⟩ := hT
        obtain ⟨hv0, hu0⟩ := max_le_iff.mp hvu
        have hmv : max al0 v = al0 := max_eq_left hv0
        have hra0 : next a (max al0 v) be0 ≤ al0 :=
          le_trans (hFa.1 (le_trans hu0 (le_max_left al0 v))) (le_of_eq hmv)
        exact max_le hv0 hra0
      · intro h1 h2
        exfalso
        have hvT : v ≤ l.foldl (fun w a => max w (tv a)) (max v (tv a)) :=
          le_trans (le_max_left _ _) (le_foldlMax_self tv l _)
        have huT : tv a ≤ l.foldl (fun w a => max w (tv a)) (max v (tv a)) :=
          le_trans (le_max_right _ _) (le_foldlMax_self tv l _)
        have hra_lt : next a (max al0 v) be0 < be0 := by
          by_cases hual : tv a ≤ max al0 v
          · have hle : next a (max al0 v) be0 ≤ max al0 v := hFa.1 hual
            have : max al0 v ≤ l.foldl (fun w a => max w (tv a)) (max v (tv a)) :=
              max_le (le_of_lt h1) hvT
            exact lt_of_le_of_lt (le_trans hle this) h2
          · have heq : next a (max al0 v) be0 = tv a :=
              hFa.2.1 (not_le.mp hual) (lt_of_le_of_lt huT h2)
            rw [heq]
            exact lt_of_le_of_lt huT h2
        exact absurd hret (not_le.mpr (max_lt (lt_of_le_of_lt hvT h2) hra_lt))
      · intro _
        exact hret
    · rw [if_neg hret]
      have hvv' : v ≤ max v (next a (max al0 v) be0) := le_max_left _ _
      rw [max_assoc, max_eq_right hvv']
      have ihv' := ih (max v (next a (max al0 v) be0)) al0
      have hT := foldlMax_init tv l (max v (tv a))
      have hT' := foldlMax_init tv l (max v (next a (max al0 v) be0))
      refine ⟨?_, ?_, ?_⟩
      · intro hle
        rw [hT] at hle
        obtain ⟨hvu, hE0⟩ := max_le_iff.mp hle
        obtain ⟨hv0, hu0⟩ := max_le_iff.mp hvu
        have hmv : max al0 v = al0 := max_eq_left hv0
        have hra0 : next a (max al0 v) be0 ≤ al0 :=
          le_trans (hFa.1 (le_trans hu0 (le_max_left al0 v))) (le_of_eq hmv)
        apply ihv'.1
        rw [hT']
        exact max_le (max_le hv0 hra0) hE0
      · intro h1 h2
        rw [hT] at h1 h2
        have hT'eq :
            l.foldl (fun w a => max w (tv a)) (max v (next a (max al0 v) be0)) =
              max (max v (tv a)) (l.foldl (fun w a => max w (tv a)) ⊥) := by
          rw [hT']
          by_cases hual : tv a ≤ max al0 v
          · have hraal : next a (max al0 v) be0 ≤ max al0 v := hFa.1 hual
            have huvE : tv a ≤ max v (l.foldl (fun w a => max w (tv a)) ⊥) := by
              by_contra hcon
              push_neg at hcon
              have hTu : max (max v (tv a)) (l.foldl (fun w a => max w (tv a)) ⊥) = tv a := by
                have hb1 : v ≤ tv a := le_of_lt (lt_of_le_of_lt (le_max_left _ _) hcon)
                have hb2 : l.foldl (fun w a => max w (tv a)) ⊥ ≤ tv a :=
                  le_of_lt (lt_of_le_of_lt (le_max_right _ _) hcon)
                rw [max_eq_right hb1, max_eq_left hb2]
              rw [hTu] at h1
              rcases le_or_lt v al0 with hv | hv
              · rw [max_eq_left hv] at hual
                exact absurd h1 (not_lt.mpr hual)
              · rw [max_eq_right (le_of_lt hv)] at hual
                exact absurd (lt_of_le_of_lt (le_max_left _ _) hcon) (not_lt.mpr hual)
            have hTvE :
                max (max v (tv a)) (l.foldl (fun w a => max w (tv a)) ⊥) =
                  max v (l.foldl (fun w a => max w (tv a)) ⊥) := by
              apply le_antisymm
              · exact max_le (max_le (le_max_left _ _) huvE) (le_max_right _ _)
              · exact max_le (le_trans (le_max_left v (tv a)) (le_max_left _ _))
                  (le_max_right _ _)
            have hraT :
                next a (max al0 v) be0 ≤ max v (l.foldl (fun w a => max w (tv a)) ⊥) := by
              refine le_trans hraal (max_le ?_ (le_max_left _ _))
              rw [← hTvE]
              exact le_of_lt h1
            rw [hTvE]
            apply le_antisymm
            · exact max_le (max_le (le_max_left _ _) hraT) (le_max_right _ _)
            · exact max_le (le_trans (le_max_left v _) (le_max_left _ _)) (le_max_right _ _)
          · have huT : tv a ≤ max (max v (tv a)) (l.foldl (fun w a => max w (tv a)) ⊥) :=
              le_trans (le_max_right v (tv a)) (le_max_left _ _)
            have heq : next a (max al0 v) be0 = tv a :=
              hFa.2.1 (not_le.mp hual) (lt_of_le_of_lt huT h2)
            rw [heq]
        have hr := ihv'.2.1 (by rw [hT'eq]; exact h1) (by rw [hT'eq]; exact h2)
        rw [hr, hT'eq, hT]
      · intro h3
        rw [hT] at h3
        rcases le_max_iff.mp h3 with hvu | hE3
        · rcases le_max_iff.mp hvu with hv3 | hu3
          · exact absurd (le_trans hv3 (le_max_left _ _)) hret
          · have hra3 := hFa.2.2 hu3
            exact absurd (le_trans hra3 (le_max_right _ _)) hret
        · apply ihv'.2.2
          rw [hT']
          exact le_trans hE3 (le_max_right _ _)

/-- Fail-soft invariant of the `min_value` loop of `alpha_beta_search`,
dual to `abGoMax_spec`, for the entry invariant `beta = min beta₀ v`. -/
theorem abGoMin_spec {α : Type} (next : α → XR → XR → XR) (tv : α → XR) (al0 : XR)
    (hnext : ∀ a al be, FS (next a al be) (tv a) al be) :
    ∀ (l : List α) (v be0 : XR),
      FS (abGoMin next l v al0 (min be0 v))
        (l.foldl (fun w a => min w (tv a)) v) al0 be0 := by
  intro l
  induction l with
  | nil =>
    intro v be0
    simpa [abGoMin] using FS_refl v al0 be0
  | cons a l ih =>
    intro v be0
    have hFa := hnext a al0 (min be0 v)
    simp only [abGoMin, List.foldl_cons]
    by_cases hret : min v (next a al0 (min be0 v)) ≤ al0
    · rw [if_pos hret]
      refine ⟨?_, ?_, ?_⟩
      · intro _
        exact hret
      · intro h1 h2
        exfalso
        have hvT : l.foldl (fun w a => min w (tv a)) (min v (tv a)) ≤ v :=
          le_trans (foldlMin_le_self tv l _) (min_le_left _ _)
        have huT : l.foldl (fun w a => min w (tv a)) (min v (tv a)) ≤ tv a :=
          le_trans (foldlMin_le_self tv l _) (min_le_right _ _)
        have hra_gt : al0 < next a al0 (min be0 v) := by
          by_cases hube : min be0 v ≤ tv a
          · have hge : min be0 v ≤ next a al0 (min be0 v) := hFa.2.2 hube
            have hmin : al0 < min be0 v := lt_min (lt_trans h1 h2) (lt_of_lt_of_le h1 hvT)
            exact lt_of_lt_of_le hmin hge
          · have heq : next a al0 (min be0 v) = tv a :=
              hFa.2.1 (lt_of_lt_of_le h1 huT) (not_le.mp hube)
            rw [heq]
            exact lt_of_lt_of_le h1 huT
        exact absurd hret (not_le.mpr (lt_min (lt_of_lt_of_le h1 hvT) hra_gt))
      · intro h3
        have hvT : l.foldl (fun w a => min w (tv a)) (min v (tv a)) ≤ v :=
          le_trans (foldlMin_le_self tv l _) (min_le_left _ _)
        have huT : l.foldl (fun w a => min w (tv a)) (min v (tv a)) ≤ tv a :=
          le_trans (foldlMin_le_self tv l _) (min_le_right _ _)
        have hbv : min be0 v = be0 := min_eq_left (le_trans h3 hvT)
        have hge : min be0 v ≤ next a al0 (min be0 v) :=
          hFa.2.2 (by rw [hbv]; exact le_trans h3 huT)
        exact le_min (le_trans h3 hvT) (le_trans (le_of_eq hbv.symm) hge)
    · rw [if_neg hret]
      have hv'v : min v (next a al0 (min be0 v)) ≤ v := min_le_left _ _
      rw [min_assoc, min_eq_right hv'v]
      have ihv' := ih (min v (next a al0 (min be0 v))) be0
      have hT := foldlMin_init tv l (min v (tv a))
      have hT' := foldlMin_init tv l (min v (next a al0 (min be0 v)))
      refine ⟨?_, ?_, ?_⟩
      · intro hle
        rw [hT] at hle
        rcases min_le_iff.mp hle with hvu | hE0
        · rcases min_le_iff.mp hvu with hv0 | hu0
          · exact absurd (le_trans (min_le_left _ _) hv0) hret
          · exact absurd (le_trans (min_le_right _ _) (hFa.1 hu0)) hret
        · apply ihv'.1
          rw [hT']
          exact le_trans (min_le_right _ _) hE0
      · intro h1 h2
        rw [hT] at h1 h2
        have hT'eq :
            l.foldl (fun w a => min w (tv a)) (min v (next a al0 (min be0 v))) =
              min (min v (tv a)) (l.foldl (fun w a => min w (tv a)) ⊤) := by
          rw [hT']
          by_cases hube : min be0 v ≤ tv a
          · have hrabe : min be0 v ≤ next a al0 (min be0 v) := hFa.2.2 hube
            have huvE : min v (l.foldl (fun w a => min w (tv a)) ⊤) ≤ tv a := by
              by_contra hcon
              push_neg at hcon
              have hTu : min (min v (tv a)) (l.foldl (fun w a => min w (tv a)) ⊤) = tv a := by
                have hb1 : tv a ≤ v := le_of_lt (lt_of_lt_of_le hcon (min_le_left _ _))
                have hb2 : tv a ≤ l.foldl (fun w a => min w (tv a)) ⊤ :=
                  le_of_lt (lt_of_lt_of_le hcon (min_le_right _ _))
                rw [min_eq_right hb1, min_eq_left hb2]
              rw [hTu] at h2
              rcases le_or_lt be0 v with hv | hv
              · rw [min_eq_left hv] at hube
                exact absurd h2 (not_lt.mpr hube)
              · rw [min_eq_right (le_of_lt hv)] at hube
                exact absurd (lt_of_lt_of_le hcon (min_le_left _ _)) (not_lt.mpr hube)
            have hTvE :
                min (min v (tv a)) (l.foldl (fun w a => min w (tv a)) ⊤) =
                  min v (l.foldl (fun w a => min w (tv a)) ⊤) := by
              apply le_antisymm
              · exact le_min (le_trans (min_le_left _ _) (min_le_left _ _)) (min_le_right _ _)
              · exact le_min (le_min (min_le_left _ _) huvE) (min_le_right _ _)
            have hraT :
                min v (l.foldl (fun w a => min w (tv a)) ⊤) ≤ next a al0 (min be0 v) := by
              refine le_trans (le_min ?_ (min_le_left _ _)) hrabe
              rw [← hTvE]
              exact le_of_lt h2
            rw [hTvE]
            apply le_antisymm
            · exact le_min (le_trans (min_le_left _ _) (min_le_left _ _)) (min_le_right _ _)
            · exact le_min (le_min (min_le_left _ _) hraT) (min_le_right _ _)
          · have huT' :
                min (min v (tv a)) (l.foldl (fun w a => min w (tv a)) ⊤) ≤ tv a :=
              le_trans (min_le_left _ _) (min_le_right _ _)
            have heq : next a al0 (min be0 v) = tv a :=
              hFa.2.1 (lt_of_lt_of_le h1 huT') (not_le.mp hube)
            rw [heq]
        have hr := ihv'.2.1 (by rw [hT'eq]; exact h1) (by rw [hT'eq]; exact h2)
        rw [hr, hT'eq, hT]
      · intro h3
        rw [hT] at h3
        rw [le_min_iff] at h3
        obtain ⟨hvu, hE3⟩ := h3
        rw [le_min_iff] at hvu
        obtain ⟨hv3, hu3⟩ := hvu
        have hbv : min be0 v = be0 := min_eq_left hv3
        have hrabe : min be0 v ≤ next a al0 (min be0 v) := hFa.2.2 (by rw [hbv]; exact hu3)
        apply ihv'.2.2
        rw [hT']
        exact le_min (le_min hv3 (le_trans (le_of_eq hbv.symm) hrabe)) hE3

/-- Finite values embed strictly below `np.inf`. -/
theorem XR.q_lt_pInf (x : ℚ) : XR.q x < XR.pInf :=
  (WithBot.coe_lt_coe).mpr (WithTop.coe_lt_top x)

/-- `-np.inf` lies strictly below every finite value. -/
theorem XR.bot_lt_q (x : ℚ) : (⊥ : XR) < XR.q x :=
  WithBot.bot_lt_coe _

/-- Fail-soft correctness of `abVal` with respect to `mmVal`, by
induction on the fuel: the two searches cut the tree identically, and
each alpha-beta node result is fail-soft for the exact value of the same
node. -/
theorem abVal_FS {σ α : Type} (g : Game σ α) (p : Player) :
    ∀ (fuel : ℕ) (isMax : Bool) (s : σ) (al be : XR),
      FS (abVal g p isMax fuel s al be) (mmVal g p isMax fuel s) al be := by
  intro fuel
  induction fuel with
  | zero =>
    intro isMax s al be
    exact FS_refl _ _ _
  | succ fuel ih =>
    intro isMax s al be
    cases ht : g.terminal_test s
    · cases isMax
      · simp only [abVal, mmVal, ht, Bool.false_eq_true, if_false]
        have h := abGoMin_spec
          (fun a al' be' => abVal g p true fuel (g.result s a) al' be')
          (fun a => mmVal g p true fuel (g.result s a)) al
          (fun a al' be' => ih true (g.result s a) al' be') (g.actions s) XR.pInf be
        rwa [XR.pInf_eq_top, min_eq_left le_top] at h
      · simp only [abVal, mmVal, ht, Bool.false_eq_true, if_false, if_true]
        have h := abGoMax_spec
          (fun a al' be' => abVal g p false fuel (g.result s a) al' be')
          (fun a => mmVal g p false fuel (g.result s a)) be
          (fun a al' be' => ih false (g.result s a) al' be') (g.actions s) ⊥ al
        rwa [max_eq_left bot_le] at h
    · simp only [abVal, mmVal, ht, if_true]
      exact FS_refl _ _ _

/-- A `max`-fold over finite values with a finite seed is finite. -/
theorem foldlMax_fin_seed {α : Type} (tv : α → XR) :
    ∀ (l : List α), (∀ a ∈ l, ∃ q : ℚ, tv a = XR.q q) →
      ∀ q0 : ℚ, ∃ q : ℚ, l.foldl (fun w a => max w (tv a)) (XR.q q0) = XR.q q := by
  intro l
  induction l with
  | nil => exact fun _ q0 => ⟨q0, rfl⟩
  | cons a l ih =>
    intro hfin q0
    obtain ⟨qa, hqa⟩ := hfin a (List.mem_cons_self a l)
    simp only [List.foldl_cons]
    rcases max_choice (XR.q q0) (tv a) with hm | hm
    · rw [hm]
      exact ih (fun x hx => hfin x (List.mem_cons_of_mem a hx)) q0
    · rw [hm, hqa]
      exact ih (fun x hx => hfin x (List.mem_cons_of_mem a hx)) qa

/-- A `min`-fold over finite values with a finite seed is finite. -/
theorem foldlMin_fin_seed {α : Type} (tv : α → XR) :
    ∀ (l : List α), (∀ a ∈ l, ∃ q : ℚ, tv a = XR.q q) →
      ∀ q0 : ℚ, ∃ q : ℚ, l.foldl (fun w a => min w (tv a)) (XR.q q0) = XR.q q := by
  intro l
  induction l with
  | nil => exact fun _ q0 => ⟨q0, rfl⟩
  | cons a l ih =>
    intro hfin q0
    obtain ⟨qa, hqa⟩ := hfin a (List.mem_cons_self a l)
    simp only [List.foldl_cons]
    rcases min_choice (XR.q q0) (tv a) with hm | hm
    · rw [hm]
      exact ih (fun x hx => hfin x (List.mem_cons_of_mem a hx)) q0
    · rw [hm, hqa]
      exact ih (fun x hx => hfin x (List.mem_cons_of_mem a hx)) qa

/-- In a game in which every non-terminal state offers at least one
action (the standard game contract, and the spec's own failure
semantics), every minimax value is a finite number. -/
theorem mmVal_fin {σ α : Type} (g : Game σ α) (p : Player)
    (hprog : ∀ s, g.terminal_test s = false → g.actions s ≠ []) :
    ∀ (fuel : ℕ) (isMax : Bool) (s : σ), ∃ q : ℚ, mmVal g p isMax fuel s = XR.q q := by
  intro fuel
  induction fuel with
  | zero =>
    intro isMax s
    cases isMax
    · exact ⟨g.utility s p, rfl⟩
    · exact ⟨g.utility s p, rfl⟩
  | succ fuel ih =>
    intro isMax s
    cases ht : g.terminal_test s
    · have hne := hprog s ht
      rcases hl : g.actions s with _ | ⟨a, rest⟩
      · exact absurd hl hne
      · cases isMax
        · simp only [mmVal, ht, Bool.false_eq_true, if_false, hl, List.foldl_cons]
          obtain ⟨qa, hqa⟩ := ih true (g.result s a)
          rw [show min XR.pInf (mmVal g p true fuel (g.result s a)) =
              mmVal g p true fuel (g.result s a) from
            min_eq_right (XR.pInf_eq_top ▸ le_top), hqa]
          exact foldlMin_fin_seed _ rest
            (fun x _ => ih true (g.result s x)) qa
        · simp only [mmVal, ht, Bool.false_eq_true, if_false, if_true, hl, List.foldl_cons]
          obtain ⟨qa, hqa⟩ := ih false (g.result s a)
          rw [show max (⊥ : XR) (mmVal g p false fuel (g.result s a)) =
              mmVal g p false fuel (g.result s a) from max_eq_right bot_le, hqa]
          exact foldlMax_fin_seed _ rest
            (fun x _ => ih false (g.result s x)) qa
    · cases isMax
      · exact ⟨g.utility s p, by simp [mmVal, ht]⟩
      · exact ⟨g.utility s p, by simp [mmVal, ht]⟩

/-- The root loop of `alpha_beta_search` tracks Python's
`max(actions, key=min_value∘result)` exactly: starting from a current
best action whose exact (finite) value is the current `best_score`, both
loops select the same action. -/
theorem absRootGo_eq_pymaxGo {σ α : Type} (g : Game σ α) (p : Player) (fuel : ℕ) (state : σ)
    (tvfin : ∀ a : α, ∃ q : ℚ, mmVal g p false fuel (g.result state a) = XR.q q) :
    ∀ (l : List α) (b : α),
      absRootGo g p fuel state l (mmVal g p false fuel (g.result state b)) (some b) =
        some (pymaxGo (fun a => mmVal g p false fuel (g.result state a))
          (fun x y => decide (y < x)) l b (mmVal g p false fuel (g.result state b))) := by
  intro l
  induction l with
  | nil => intro b; rfl
  | cons x xs ih =>
    intro b
    simp only [absRootGo, pymaxGo]
    have hFS := abVal_FS g p fuel false (g.result state x)
      (mmVal g p false fuel (g.result state b)) XR.pInf
    obtain ⟨qx, hqx⟩ := tvfin x
    by_cases hgt : mmVal g p false fuel (g.result state b) <
        mmVal g p false fuel (g.result state x)
    · have hv : abVal g p false fuel (g.result state x)
          (mmVal g p false fuel (g.result state b)) XR.pInf =
          mmVal g p false fuel (g.result state x) :=
        hFS.2.1 hgt (by rw [hqx]; exact XR.q_lt_pInf qx)
      rw [hv, if_pos hgt, if_pos (by simpa using hgt)]
      exact ih x
    · have hv_le : abVal g p false fuel (g.result state x)
          (mmVal g p false fuel (g.result state b)) XR.pInf ≤
          mmVal g p false fuel (g.result state b) :=
        hFS.1 (not_lt.mp hgt)
      rw [if_neg (not_lt.mpr hv_le), if_neg (by simpa using hgt)]
      exact ih b

/-- C4: on every game satisfying the standard contract that non-terminal
states offer at least one action (the spec's own failure semantics
assigns empty action sets to terminal states only), and every
non-terminal root state, `alpha_beta_search` and `minmax_decision`
select actions of identical minimax value — in fact the very same (the
first maximizing) action — at any common search depth `fuel`. -/
theorem c4_alpha_beta_matches_minmax {σ α : Type} (g : Game σ α) (fuel : ℕ) (s : σ)
    (hprog : ∀ s', g.terminal_test s' = false → g.actions s' ≠ [])
    (hroot : g.terminal_test s = false) :
    ∃ amm aab, minmax_decision g fuel s = Except.ok amm ∧
      alpha_beta_search g fuel s = some aab ∧
      mmVal g (g.to_move s) false fuel (g.result s amm) =
        mmVal g (g.to_move s) false fuel (g.result s aab) := by
  rcases hl : g.actions s with _ | ⟨a, rest⟩
  · exact absurd hl (hprog s hroot)
  · obtain ⟨qa, hqa⟩ := mmVal_fin g (g.to_move s) hprog fuel false (g.result s a)
    have hFS := abVal_FS g (g.to_move s) fuel false (g.result s a) ⊥ XR.pInf
    have hv1 : abVal g (g.to_move s) false fuel (g.result s a) ⊥ XR.pInf =
        mmVal g (g.to_move s) false fuel (g.result s a) :=
      hFS.2.1 (by rw [hqa]; exact XR.bot_lt_q qa) (by rw [hqa]; exact XR.q_lt_pInf qa)
    refine ⟨pymaxGo (fun x => mmVal g (g.to_move s) false fuel (g.result s x))
        (fun x y => decide (y < x)) rest a (mmVal g (g.to_move s) false fuel (g.result s a)),
      pymaxGo (fun x => mmVal g (g.to_move s) false fuel (g.result s x))
        (fun x y => decide (y < x)) rest a (mmVal g (g.to_move s) false fuel (g.result s a)),
      ?_, ?_, rfl⟩
    · simp only [minmax_decision, hl, pymaxKey]
    · simp only [alpha_beta_search, hl, absRootGo]
      rw [hv1, if_pos (by rw [hqa]; exact XR.bot_lt_q qa)]
      exact absRootGo_eq_pymaxGo g (g.to_move s) fuel s
        (fun x => mmVal_fin g (g.to_move s) hprog fuel false (g.result s x)) rest a

/-- C4, witness for `c4_alpha_beta_matches_minmax`. -/
theorem c4_witness :
    ∃ amm aab, minmax_decision wGame 3 0 = Except.ok amm ∧
      alpha_beta_search wGame 3 0 = some aab ∧
      mmVal wGame (wGame.to_move 0) false 3 (wGame.result 0 amm) =
        mmVal wGame (wGame.to_move 0) false 3 (wGame.result 0 aab) :=
  c4_alpha_beta_matches_minmax wGame 3 0 (by decide) (by decide)
